import Mathlib

/-!
Verification of the blkchn-file-tracker core: the inotify mask codec and
batch extractor (`src/dir_watcher/mod.rs`) and the per-path event ledger
with borsh serialization and exact-fit storage resize
(`solana_program/src/processor.rs`, `solana_program/src/event.rs`).

Rust strings are modelled by their UTF-8 byte content (`List Nat`, one
entry per byte); machine integers are modelled as `Nat`/`Int` with
explicit reduction modulo `2 ^ w` where the width matters.
-/

namespace FileTracker

/-- Byte strings: the UTF-8 content of a Rust `String` (or a raw byte
buffer), one `Nat` per byte. -/
abbrev ByteStr := List Nat

/-- `EventType` from `solana_program/src/event.rs` (same variants and order
as the copy used by `dir_watcher`). -/
inductive EventType
  | AttributeChanged
  | Created
  | Deleted
  | MovedFrom
  | MovedTo
  | Opened
  | Written
deriving DecidableEq

/-- `FileInfo` from `solana_program/src/event.rs`: fields in declaration
order `access_ts`, `modify_ts`, `created_ts` (optional i128 unix
timestamps), then `size : u64` and `mode : u32`. -/
structure FileInfo where
  access_ts : Option Int
  modify_ts : Option Int
  created_ts : Option Int
  size : Nat
  mode : Nat
deriving DecidableEq

/-- `Event` from `solana_program/src/event.rs`: `file_path : String`,
`event_type`, `solana_ts_received_at : i128`, `file_info : Option FileInfo`. -/
structure Event where
  file_path : ByteStr
  event_type : EventType
  solana_ts_received_at : Int
  file_info : Option FileInfo
deriving DecidableEq

/-- Bitflags `contains`: all bits of `flag` are set in `mask`
(`mask & flag == flag`). -/
def containsBit (mask flag : Nat) : Bool := mask &&& flag == flag

/-- The local `ret` accumulator of `EventType::from_event_mask`
(`src/dir_watcher/mod.rs`): the variants whose inotify bit is set in the
mask, pushed in source order.  The inotify bits are `ATTRIB = 0x004`,
`CREATE = 0x100`, `DELETE = 0x200`, `MOVED_FROM = 0x040`,
`MOVED_TO = 0x080`, `OPEN = 0x020`, `CLOSE_WRITE = 0x008`. -/
def maskVariants (mask : Nat) : List EventType :=
  (if containsBit mask 0x004 then [EventType.AttributeChanged] else [])
    ++ (if containsBit mask 0x100 then [EventType.Created] else [])
    ++ (if containsBit mask 0x200 then [EventType.Deleted] else [])
    ++ (if containsBit mask 0x040 then [EventType.MovedFrom] else [])
    ++ (if containsBit mask 0x080 then [EventType.MovedTo] else [])
    ++ (if containsBit mask 0x020 then [EventType.Opened] else [])
    ++ (if containsBit mask 0x008 then [EventType.Written] else [])

/-- `EventType::from_event_mask` from `src/dir_watcher/mod.rs`: returns the
collected variants, or `none` when no recognized bit is present. -/
def from_event_mask (mask : Nat) : Option (List EventType) :=
  if (maskVariants mask).length > 0 then some (maskVariants mask) else none

/-- The fixed variant order in which `from_event_mask` emits event types. -/
def fixedVariantOrder : List EventType :=
  [EventType.AttributeChanged, EventType.Created, EventType.Deleted,
   EventType.MovedFrom, EventType.MovedTo, EventType.Opened, EventType.Written]

theorem maskVariants_sublist (mask : Nat) :
    (maskVariants mask).Sublist fixedVariantOrder := by
  unfold maskVariants fixedVariantOrder
  split <;> split <;> split <;> split <;> split <;> split <;> split <;> decide

theorem from_event_mask_sublist {mask : Nat} {l : List EventType}
    (h : from_event_mask mask = some l) : l.Sublist fixedVariantOrder := by
  unfold from_event_mask at h
  split at h
  · exact (Option.some_inj.mp h) ▸ maskVariants_sublist mask
  · cases h

theorem from_event_mask_ne_nil {mask : Nat} {l : List EventType}
    (h : from_event_mask mask = some l) : l ≠ [] := by
  unfold from_event_mask at h
  split at h
  · rename_i hlen
    rcases Option.some_inj.mp h
    intro hnil
    rw [hnil] at hlen
    simp at hlen
  · cases h

theorem from_event_mask_none {mask : Nat}
    (h4 : ¬containsBit mask 0x004) (h256 : ¬containsBit mask 0x100)
    (h512 : ¬containsBit mask 0x200) (h64 : ¬containsBit mask 0x040)
    (h128 : ¬containsBit mask 0x080) (h32 : ¬containsBit mask 0x020)
    (h8 : ¬containsBit mask 0x008) : from_event_mask mask = none := by
  simp [from_event_mask, maskVariants, h4, h256, h512, h64, h128, h32, h8]

theorem from_event_mask_isSome {mask flag : Nat}
    (hflag : flag ∈ [0x004, 0x100, 0x200, 0x040, 0x080, 0x020, 0x008])
    (h : containsBit mask flag) : ∃ l, from_event_mask mask = some l := by
  have hpos : 0 < (maskVariants mask).length := by
    fin_cases hflag
    · have hm : EventType.AttributeChanged ∈ maskVariants mask := by
        simp [maskVariants, h]
      exact List.length_pos_of_mem hm
    · have hm : EventType.Created ∈ maskVariants mask := by
        simp [maskVariants, h]
      exact List.length_pos_of_mem hm
    · have hm : EventType.Deleted ∈ maskVariants mask := by
        simp [maskVariants, h]
      exact List.length_pos_of_mem hm
    · have hm : EventType.MovedFrom ∈ maskVariants mask := by
        simp [maskVariants, h]
      exact List.length_pos_of_mem hm
    · have hm : EventType.MovedTo ∈ maskVariants mask := by
        simp [maskVariants, h]
      exact List.length_pos_of_mem hm
    · have hm : EventType.Opened ∈ maskVariants mask := by
        simp [maskVariants, h]
      exact List.length_pos_of_mem hm
    · have hm : EventType.Written ∈ maskVariants mask := by
        simp [maskVariants, h]
      exact List.length_pos_of_mem hm
  exact ⟨maskVariants mask, by simp [from_event_mask, hpos]⟩

/-- Claim C3: every raw mask with at least one of the 7 recognized inotify
bits decodes to a non-empty list of event types that is a subsequence of the
fixed variant order (hence each variant appears at most once, in order); a
mask with none of the recognized bits decodes to no events. -/
theorem mask_decode_spec (mask : Nat) :
    ((containsBit mask 0x004 ∨ containsBit mask 0x100 ∨ containsBit mask 0x200 ∨
        containsBit mask 0x040 ∨ containsBit mask 0x080 ∨ containsBit mask 0x020 ∨
        containsBit mask 0x008) →
      ∃ l, from_event_mask mask = some l ∧ l ≠ [] ∧ l.Sublist fixedVariantOrder ∧ l.Nodup) ∧
    ((¬containsBit mask 0x004 ∧ ¬containsBit mask 0x100 ∧ ¬containsBit mask 0x200 ∧
        ¬containsBit mask 0x040 ∧ ¬containsBit mask 0x080 ∧ ¬containsBit mask 0x020 ∧
        ¬containsBit mask 0x008) →
      from_event_mask mask = none) := by
  constructor
  · intro hbit
    have hsome : ∃ l, from_event_mask mask = some l := by
      rcases hbit with h | h | h | h | h | h | h
      · exact from_event_mask_isSome (by simp) h
      · exact from_event_mask_isSome (by simp) h
      · exact from_event_mask_isSome (by simp) h
      · exact from_event_mask_isSome (by simp) h
      · exact from_event_mask_isSome (by simp) h
      · exact from_event_mask_isSome (by simp) h
      · exact from_event_mask_isSome (by simp) h
    obtain ⟨l, hl⟩ := hsome
    have hsub := from_event_mask_sublist hl
    exact ⟨l, hl, from_event_mask_ne_nil hl, hsub,
      hsub.nodup (by decide)⟩
  · intro ⟨h4, h256, h512, h64, h128, h32, h8⟩
    exact from_event_mask_none h4 h256 h512 h64 h128 h32 h8

/-- Witness for C3 at concrete masks: `0x004` (ATTRIB) decodes non-empty and
in order, `0x001` (an unrecognized bit) decodes to no events. -/
theorem mask_decode_spec_witness :
    (∃ l, from_event_mask 0x004 = some l ∧ l ≠ [] ∧ l.Sublist fixedVariantOrder ∧ l.Nodup) ∧
    from_event_mask 0x001 = none :=
  ⟨(mask_decode_spec 0x004).1 (Or.inl (by decide)),
   (mask_decode_spec 0x001).2 (by decide)⟩

/-! ## Batch extractor (`DirWatcher::extract_events`) -/

/-- A raw inotify record: a bitmask and an optional associated file name. -/
structure InotifyEvent where
  mask : Nat
  name : Option ByteStr
deriving DecidableEq

/-- `Path::new(&self.dir).join(name)` for the relative file names that
inotify reports: the watched directory root, a `/` (byte 47), then the
name. -/
def joinPath (dir n : ByteStr) : ByteStr := dir ++ 47 :: n

/-- First-match association-list lookup, modelling `HashMap::get` (the maps
involved never hold a key twice). -/
def assocLookup {α : Type} (m : List (ByteStr × α)) (k : ByteStr) : Option α :=
  match m with
  | [] => none
  | (k0, v) :: rest => if k0 = k then some v else assocLookup rest k

/-- The inner `for event_type in event_types` loop of `extract_events`: one
`Event` per decoded type, with `file_info` forced to `none` for `Deleted`
and `solana_ts_received_at` left at the sentinel `0`. -/
def eventsFor (file_path : ByteStr) (event_types : List EventType)
    (file_info : Option FileInfo) : List Event :=
  event_types.map fun event_type =>
    { file_path := file_path
      event_type := event_type
      solana_ts_received_at := 0
      file_info := match event_type with
        | EventType.Deleted => none
        | _ => file_info }

/-- The record loop of `DirWatcher::extract_events`, with the per-batch
`file_infos` cache threaded explicitly.  The metadata reader
`self.read_file_metadata` is abstracted as a function from path to
`Option FileInfo` (`none` covers both `NotFound` and other read errors,
which differ only in logging); the second component of the result lists the
paths the reader was invoked on, in order.  A successful read is inserted
into the cache; a failed read is not. -/
def extract_events_go (reader : ByteStr → Option FileInfo) (dir : ByteStr) :
    List InotifyEvent → List (ByteStr × FileInfo) → List Event × List ByteStr
  | [], _ => ([], [])
  | ie :: rest, file_infos =>
    match ie.name with
    | none => extract_events_go reader dir rest file_infos
    | some n =>
      let file_path := joinPath dir n
      match from_event_mask ie.mask with
      | none => extract_events_go reader dir rest file_infos
      | some event_types =>
        match assocLookup file_infos file_path with
        | some fi =>
          let r := extract_events_go reader dir rest file_infos
          (eventsFor file_path event_types (some fi) ++ r.1, r.2)
        | none =>
          match reader file_path with
          | none =>
            let r := extract_events_go reader dir rest file_infos
            (eventsFor file_path event_types none ++ r.1, file_path :: r.2)
          | some fi =>
            let r := extract_events_go reader dir rest ((file_path, fi) :: file_infos)
            (eventsFor file_path event_types (some fi) ++ r.1, file_path :: r.2)

/-- `DirWatcher::extract_events`: run the record loop with an initially
empty per-batch metadata cache. -/
def extract_events (reader : ByteStr → Option FileInfo) (dir : ByteStr)
    (ies : List InotifyEvent) : List Event × List ByteStr :=
  extract_events_go reader dir ies []

/-- Number of occurrences of path `p` in a list of paths. -/
def countPath (p : ByteStr) : List ByteStr → Nat
  | [] => 0
  | q :: rest => (if q = p then 1 else 0) + countPath p rest

theorem eventsFor_deleted {p : ByteStr} {ts : List EventType} {fi : Option FileInfo}
    {e : Event} (he : e ∈ eventsFor p ts fi)
    (hd : e.event_type = EventType.Deleted) : e.file_info = none := by
  unfold eventsFor at he
  rcases List.mem_map.mp he with ⟨t, _, rfl⟩
  simp only at hd
  subst hd
  rfl

theorem extract_events_go_deleted (reader : ByteStr → Option FileInfo) (dir : ByteStr) :
    ∀ (ies : List InotifyEvent) (cache : List (ByteStr × FileInfo)) (e : Event),
      e ∈ (extract_events_go reader dir ies cache).1 →
      e.event_type = EventType.Deleted → e.file_info = none := by
  intro ies
  induction ies with
  | nil =>
    intro cache e he
    simp [extract_events_go] at he
  | cons ie rest ih =>
    intro cache e he hd
    obtain ⟨m, nm⟩ := ie
    cases nm with
    | none =>
      simp only [extract_events_go] at he
      exact ih cache e he hd
    | some n =>
      cases hmask : from_event_mask m with
      | none =>
        simp only [extract_events_go, hmask] at he
        exact ih cache e he hd
      | some ts =>
        cases hcl : assocLookup cache (joinPath dir n) with
        | some fi =>
          simp only [extract_events_go, hmask, hcl] at he
          rcases List.mem_append.mp he with hl | hr
          · exact eventsFor_deleted hl hd
          · exact ih cache e hr hd
        | none =>
          cases hread : reader (joinPath dir n) with
          | none =>
            simp only [extract_events_go, hmask, hcl, hread] at he
            rcases List.mem_append.mp he with hl | hr
            · exact eventsFor_deleted hl hd
            · exact ih cache e hr hd
          | some fi =>
            simp only [extract_events_go, hmask, hcl, hread] at he
            rcases List.mem_append.mp he with hl | hr
            · exact eventsFor_deleted hl hd
            · exact ih _ e hr hd

/-- Claim C4: every event the batch extractor produces with event type
`Deleted` carries no `file_info`, whatever the per-batch metadata cache or
the reader returned for its path. -/
theorem deleted_has_no_file_info (reader : ByteStr → Option FileInfo)
    (dir : ByteStr) (ies : List InotifyEvent) (e : Event)
    (he : e ∈ (extract_events reader dir ies).1)
    (hd : e.event_type = EventType.Deleted) : e.file_info = none :=
  extract_events_go_deleted reader dir ies [] e he hd

/-- Witness for C4: a concrete `Deleted` record whose path the reader can
stat still yields an event with no `file_info`. -/
theorem deleted_has_no_file_info_witness :
    (⟨[100, 47, 97], EventType.Deleted, 0, none⟩ : Event).file_info = none :=
  deleted_has_no_file_info (fun _ => some ⟨none, none, none, 0, 0⟩) [100]
    [⟨0x200, some [97]⟩] ⟨[100, 47, 97], EventType.Deleted, 0, none⟩
    (by decide) (by decide)

theorem extract_events_go_calls_cached (reader : ByteStr → Option FileInfo)
    (dir : ByteStr) (p : ByteStr) :
    ∀ (ies : List InotifyEvent) (cache : List (ByteStr × FileInfo)),
      (assocLookup cache p).isSome →
      countPath p (extract_events_go reader dir ies cache).2 = 0 := by
  intro ies
  induction ies with
  | nil =>
    intro cache _
    simp [extract_events_go, countPath]
  | cons ie rest ih =>
    intro cache hcache
    obtain ⟨m, nm⟩ := ie
    cases nm with
    | none =>
      simp only [extract_events_go]
      exact ih cache hcache
    | some n =>
      cases hmask : from_event_mask m with
      | none =>
        simp only [extract_events_go, hmask]
        exact ih cache hcache
      | some ts =>
        by_cases hp : joinPath dir n = p
        · subst hp
          cases hcl : assocLookup cache (joinPath dir n) with
          | some fi =>
            simp only [extract_events_go, hmask, hcl]
            exact ih cache hcache
          | none =>
            rw [hcl] at hcache
            simp at hcache
        · cases hcl : assocLookup cache (joinPath dir n) with
          | some fi =>
            simp only [extract_events_go, hmask, hcl]
            exact ih cache hcache
          | none =>
            cases hread : reader (joinPath dir n) with
            | none =>
              simp only [extract_events_go, hmask, hcl, hread, countPath]
              rw [if_neg hp]
              simpa using ih cache hcache
            | some fi =>
              simp only [extract_events_go, hmask, hcl, hread, countPath]
              rw [if_neg hp]
              have hcache2 : (assocLookup ((joinPath dir n, fi) :: cache) p).isSome := by
                simp only [assocLookup]
                rw [if_neg hp]
                exact hcache
              simpa using ih _ hcache2

theorem extract_events_go_calls_le_one (reader : ByteStr → Option FileInfo)
    (dir : ByteStr) (p : ByteStr) (hs : (reader p).isSome) :
    ∀ (ies : List InotifyEvent) (cache : List (ByteStr × FileInfo)),
      countPath p (extract_events_go reader dir ies cache).2 ≤ 1 := by
  intro ies
  induction ies with
  | nil =>
    intro cache
    simp [extract_events_go, countPath]
  | cons ie rest ih =>
    intro cache
    obtain ⟨m, nm⟩ := ie
    cases nm with
    | none =>
      simp only [extract_events_go]
      exact ih cache
    | some n =>
      cases hmask : from_event_mask m with
      | none =>
        simp only [extract_events_go, hmask]
        exact ih cache
      | some ts =>
        cases hcl : assocLookup cache (joinPath dir n) with
        | some fi =>
          simp only [extract_events_go, hmask, hcl]
          exact ih cache
        | none =>
          by_cases hp : joinPath dir n = p
          · subst hp
            cases hread : reader (joinPath dir n) with
            | none =>
              rw [hread] at hs
              simp at hs
            | some fi =>
              simp only [extract_events_go, hmask, hcl, hread, countPath]
              have h0 : countPath (joinPath dir n)
                  (extract_events_go reader dir rest
                    ((joinPath dir n, fi) :: cache)).2 = 0 := by
                apply extract_events_go_calls_cached
                simp [assocLookup]
              rw [h0]
              simp
          · cases hread : reader (joinPath dir n) with
            | none =>
              simp only [extract_events_go, hmask, hcl, hread, countPath]
              rw [if_neg hp]
              simpa using ih cache
            | some fi =>
              simp only [extract_events_go, hmask, hcl, hread, countPath]
              rw [if_neg hp]
              simpa using ih _

/-- Claim C5 counterexample: a batch with two records for the same name and
a metadata reader that fails invokes the reader twice for that path — a
failed read is not cached, so "at most once regardless of whether the read
succeeds or fails" does not hold of the code. -/
theorem metadata_read_once_counterexample :
    ¬ (countPath (joinPath [100] [97])
        (extract_events (fun _ => none) [100]
          [⟨0x004, some [97]⟩, ⟨0x004, some [97]⟩]).2 ≤ 1) := by
  decide

/-- Claim C5 amended: within one extractor invocation the metadata reader is
invoked at most once for any path whose read succeeds (successful reads are
cached for the rest of the batch); a failed read is not cached and may be
retried for a later record with the same path. -/
theorem metadata_read_once_amended (reader : ByteStr → Option FileInfo)
    (dir : ByteStr) (ies : List InotifyEvent) (p : ByteStr)
    (hs : (reader p).isSome) :
    countPath p (extract_events reader dir ies).2 ≤ 1 :=
  extract_events_go_calls_le_one reader dir p hs ies []

/-- Witness for amended C5: with an always-succeeding reader and three
records for the same name, the reader runs at most once for that path. -/
theorem metadata_read_once_amended_witness :
    countPath (joinPath [100] [97])
      (extract_events (fun _ => some ⟨none, none, none, 0, 0⟩) [100]
        [⟨0x004, some [97]⟩, ⟨0x004, some [97]⟩, ⟨0x200, some [97]⟩]).2 ≤ 1 :=
  metadata_read_once_amended (fun _ => some ⟨none, none, none, 0, 0⟩) [100]
    [⟨0x004, some [97]⟩, ⟨0x004, some [97]⟩, ⟨0x200, some [97]⟩]
    (joinPath [100] [97]) (by decide)

/-- Claim C6 counterexample: for a record whose mask decodes to exactly
`Deleted` (mask `0x200`, name `"gone.txt"`), the extractor still invokes the
metadata reader for that path — the code reads metadata before inspecting
the decoded event types, so "the Metadata Reader is never invoked" does not
hold. -/
theorem deleted_only_counterexample :
    ¬ (countPath (joinPath [100] [103, 111, 110, 101, 46, 116, 120, 116])
        (extract_events (fun _ => some ⟨none, none, none, 0, 0⟩) [100]
          [⟨0x200, some [103, 111, 110, 101, 46, 116, 120, 116]⟩]).2 = 0) := by
  decide

/-- Claim C6 amended: a single raw record whose mask decodes to exactly
`Deleted` and that carries a name yields one event of type `Deleted` with
`file_info = none`; the metadata reader IS invoked exactly once for the
record's path (its result, if any, is discarded for the `Deleted` event). -/
theorem deleted_only_record_amended (reader : ByteStr → Option FileInfo)
    (dir : ByteStr) (mask : Nat) (n : ByteStr)
    (hm : from_event_mask mask = some [EventType.Deleted]) :
    extract_events reader dir [⟨mask, some n⟩] =
      ([{ file_path := joinPath dir n, event_type := EventType.Deleted,
          solana_ts_received_at := 0, file_info := none }], [joinPath dir n]) := by
  unfold extract_events
  cases hr : reader (joinPath dir n) <;>
    simp [extract_events_go, hm, assocLookup, eventsFor, hr]

/-- Witness for amended C6: the `"gone.txt"` scenario with a reader that
would succeed. -/
theorem deleted_only_record_amended_witness :
    extract_events (fun _ => some ⟨none, none, none, 0, 0⟩) [100]
      [⟨0x200, some [103, 111, 110, 101, 46, 116, 120, 116]⟩] =
      ([{ file_path := joinPath [100] [103, 111, 110, 101, 46, 116, 120, 116],
          event_type := EventType.Deleted,
          solana_ts_received_at := 0, file_info := none }],
       [joinPath [100] [103, 111, 110, 101, 46, 116, 120, 116]]) :=
  deleted_only_record_amended (fun _ => some ⟨none, none, none, 0, 0⟩) [100]
    0x200 [103, 111, 110, 101, 46, 116, 120, 116] (by decide)

/-- The claim's expected contribution of one raw record to the extractor
output, projected to (path, event type): nothing without a name or without a
recognized bit, otherwise one pair per decoded type in decoded order. -/
def projected (dir : ByteStr) (ie : InotifyEvent) : List (ByteStr × EventType) :=
  match ie.name with
  | none => []
  | some n =>
    match from_event_mask ie.mask with
    | none => []
    | some ts => ts.map fun t => (joinPath dir n, t)

theorem eventsFor_proj (p : ByteStr) (ts : List EventType) (fi : Option FileInfo) :
    (eventsFor p ts fi).map (fun e => (e.file_path, e.event_type)) =
      ts.map fun t => (p, t) := by
  simp only [eventsFor, List.map_map]
  rfl

theorem extract_events_go_proj (reader : ByteStr → Option FileInfo) (dir : ByteStr) :
    ∀ (ies : List InotifyEvent) (cache : List (ByteStr × FileInfo)),
      (extract_events_go reader dir ies cache).1.map (fun e => (e.file_path, e.event_type)) =
        (ies.map (projected dir)).flatten := by
  intro ies
  induction ies with
  | nil =>
    intro cache
    simp [extract_events_go]
  | cons ie rest ih =>
    intro cache
    obtain ⟨m, nm⟩ := ie
    cases nm with
    | none =>
      simp only [extract_events_go, List.map_cons, List.flatten_cons]
      rw [ih cache]
      rfl
    | some n =>
      cases hmask : from_event_mask m with
      | none =>
        simp only [extract_events_go, hmask, List.map_cons, List.flatten_cons, projected]
        rw [ih cache]
        simp
      | some ts =>
        have hproj : projected dir ⟨m, some n⟩ = ts.map fun t => (joinPath dir n, t) := by
          simp [projected, hmask]
        cases hcl : assocLookup cache (joinPath dir n) with
        | some fi =>
          simp only [extract_events_go, hmask, hcl, List.map_cons, List.flatten_cons,
            List.map_append, eventsFor_proj, hproj]
          rw [ih cache]
        | none =>
          cases hread : reader (joinPath dir n) with
          | none =>
            simp only [extract_events_go, hmask, hcl, hread, List.map_cons,
              List.flatten_cons, List.map_append, eventsFor_proj, hproj]
            rw [ih cache]
          | some fi =>
            simp only [extract_events_go, hmask, hcl, hread, List.map_cons,
              List.flatten_cons, List.map_append, eventsFor_proj, hproj]
            rw [ih _]

/-- Claim C7: the extractor output consists exactly of the events built from
records that carry a name and whose mask has a recognized bit, in record
order (projected to path and type, since `file_info` depends on the reader),
and the decoded types of one record always form a subsequence of the fixed
variant order. -/
theorem extractor_output_spec (reader : ByteStr → Option FileInfo)
    (dir : ByteStr) (ies : List InotifyEvent) :
    ((extract_events reader dir ies).1.map (fun e => (e.file_path, e.event_type)) =
      (ies.map (projected dir)).flatten) ∧
    ∀ mask l, from_event_mask mask = some l → l.Sublist fixedVariantOrder :=
  ⟨extract_events_go_proj reader dir ies [], fun _ _ h => from_event_mask_sublist h⟩

/-- Witness for C7: the spec scenario — a record with mask bits for both
"attribute changed" and "close-write" (`0x00C`) and a name yields the two
events in order `AttributeChanged` then `Written`. -/
theorem extractor_output_spec_witness :
    ((extract_events (fun _ => none) [100] [⟨0x00C, some [102]⟩]).1.map
        (fun e => (e.file_path, e.event_type)) =
      ([(⟨0x00C, some [102]⟩ : InotifyEvent)].map (projected [100])).flatten) ∧
    [EventType.AttributeChanged, EventType.Written].Sublist fixedVariantOrder :=
  ⟨(extractor_output_spec (fun _ => none) [100] [⟨0x00C, some [102]⟩]).1,
   (extractor_output_spec (fun _ => none) [100] [⟨0x00C, some [102]⟩]).2 0x00C
     [EventType.AttributeChanged, EventType.Written] (by decide)⟩

/-! ## Borsh wire format for `Event` and the ledger map

Modelled from the spec (§6): the derived borsh impls for `Event`,
`FileInfo` and `AccountData` are generated library code not present under
`src/`; the spec fixes the format as tag-discriminated enums in declaration
order, `Option` as a one-byte presence flag, strings as length-prefixed
UTF-8, integers fixed-width little-endian, and the `HashMap` as a `u32`
count followed by the entries sorted by key. -/

/-- Little-endian byte encoding of `n` on `k` bytes (the fixed-width
integer encoding of the wire format). -/
def natToLE : Nat → Nat → List Nat
  | 0, _ => []
  | k + 1, n => n % 256 :: natToLE k (n / 256)

/-- Value of a little-endian byte string. -/
def leToNat : List Nat → Nat
  | [] => 0
  | b :: bs => b + 256 * leToNat bs

def serializeU32 (n : Nat) : List Nat := natToLE 4 n

def serializeU64 (n : Nat) : List Nat := natToLE 8 n

/-- A signed 128-bit integer is written as its 16-byte little-endian
two's-complement representation. -/
def serializeI128 (i : Int) : List Nat := natToLE 16 (i.emod ((2 : Int) ^ 128)).toNat

/-- Borsh enum tag of an `EventType`: the declaration ordinal. -/
def tagOfEventType : EventType → Nat
  | EventType.AttributeChanged => 0
  | EventType.Created => 1
  | EventType.Deleted => 2
  | EventType.MovedFrom => 3
  | EventType.MovedTo => 4
  | EventType.Opened => 5
  | EventType.Written => 6

def serializeEventType (t : EventType) : List Nat := [tagOfEventType t]

/-- `Option<T>`: one presence byte (0 or 1), then the payload if present. -/
def serializeOption {α : Type} (f : α → List Nat) : Option α → List Nat
  | none => [0]
  | some a => 1 :: f a

/-- A string: `u32` byte length, then the bytes. -/
def serializeString (s : ByteStr) : List Nat := serializeU32 s.length ++ s

/-- `FileInfo` fields in declaration order: `access_ts`, `modify_ts`,
`created_ts`, `size`, `mode`. -/
def serializeFileInfo (fi : FileInfo) : List Nat :=
  serializeOption serializeI128 fi.access_ts
    ++ serializeOption serializeI128 fi.modify_ts
    ++ serializeOption serializeI128 fi.created_ts
    ++ serializeU64 fi.size
    ++ serializeU32 fi.mode

/-- `Event` fields in declaration order: `file_path`, `event_type`,
`solana_ts_received_at`, `file_info`. -/
def serializeEvent (e : Event) : List Nat :=
  serializeString e.file_path
    ++ serializeEventType e.event_type
    ++ serializeI128 e.solana_ts_received_at
    ++ serializeOption serializeFileInfo e.file_info

/-- Take exactly `k` bytes from the front, failing on short input (all
deserialization errors are collapsed to `none`). -/
def takeExact (k : Nat) (bs : List Nat) : Option (List Nat × List Nat) :=
  if k ≤ bs.length then some (bs.take k, bs.drop k) else none

/-- Read a `u32`: 4 little-endian bytes (the assembled machine word is
reduced modulo `2 ^ 32`). -/
def deserializeU32 (bs : List Nat) : Option (Nat × List Nat) :=
  match takeExact 4 bs with
  | none => none
  | some (x, r) => some (leToNat x % 2 ^ 32, r)

def deserializeU64 (bs : List Nat) : Option (Nat × List Nat) :=
  match takeExact 8 bs with
  | none => none
  | some (x, r) => some (leToNat x % 2 ^ 64, r)

/-- Read an `i128`: 16 little-endian bytes, interpreted in two's
complement. -/
def deserializeI128 (bs : List Nat) : Option (Int × List Nat) :=
  match takeExact 16 bs with
  | none => none
  | some (x, r) =>
    let n : Nat := leToNat x % 2 ^ 128
    some (if n < 2 ^ 127 then (n : Int) else (n : Int) - 2 ^ 128, r)

/-- Enum tag back to `EventType`; an unknown tag is a deserialization
error. -/
def eventTypeOfTag (tag : Nat) : Option EventType :=
  if tag = 0 then some EventType.AttributeChanged
  else if tag = 1 then some EventType.Created
  else if tag = 2 then some EventType.Deleted
  else if tag = 3 then some EventType.MovedFrom
  else if tag = 4 then some EventType.MovedTo
  else if tag = 5 then some EventType.Opened
  else if tag = 6 then some EventType.Written
  else none

def deserializeEventType (bs : List Nat) : Option (EventType × List Nat) :=
  match bs with
  | [] => none
  | tag :: r =>
    match eventTypeOfTag tag with
    | none => none
    | some t => some (t, r)

/-- Read an `Option<T>`: presence byte 0 or 1 (anything else is an
error), then the payload. -/
def deserializeOption {α : Type} (f : List Nat → Option (α × List Nat))
    (bs : List Nat) : Option (Option α × List Nat) :=
  match bs with
  | [] => none
  | flag :: r =>
    if flag = 0 then some (none, r)
    else if flag = 1 then
      match f r with
      | none => none
      | some (a, r2) => some (some a, r2)
    else none

def deserializeString (bs : List Nat) : Option (ByteStr × List Nat) :=
  match deserializeU32 bs with
  | none => none
  | some (len, r) => takeExact len r

def deserializeFileInfo (bs : List Nat) : Option (FileInfo × List Nat) :=
  match deserializeOption deserializeI128 bs with
  | none => none
  | some (access_ts, r1) =>
    match deserializeOption deserializeI128 r1 with
    | none => none
    | some (modify_ts, r2) =>
      match deserializeOption deserializeI128 r2 with
      | none => none
      | some (created_ts, r3) =>
        match deserializeU64 r3 with
        | none => none
        | some (size, r4) =>
          match deserializeU32 r4 with
          | none => none
          | some (mode, r5) => some (⟨access_ts, modify_ts, created_ts, size, mode⟩, r5)

def deserializeEvent (bs : List Nat) : Option (Event × List Nat) :=
  match deserializeString bs with
  | none => none
  | some (file_path, r1) =>
    match deserializeEventType r1 with
    | none => none
    | some (event_type, r2) =>
      match deserializeI128 r2 with
      | none => none
      | some (ts, r3) =>
        match deserializeOption deserializeFileInfo r3 with
        | none => none
        | some (file_info, r4) => some (⟨file_path, event_type, ts, file_info⟩, r4)

/-- An `i128` value is in the signed 128-bit range. -/
def i128InRange (i : Int) : Bool :=
  decide (-(2 ^ 127) ≤ i) && decide (i < 2 ^ 127)

def tsWF : Option Int → Bool
  | none => true
  | some i => i128InRange i

/-- The numeric fields of a `FileInfo` fit their Rust widths (`i128`,
`u64`, `u32`) — automatic for values originating from the Rust types. -/
def FileInfo.wf (fi : FileInfo) : Bool :=
  tsWF fi.access_ts && tsWF fi.modify_ts && tsWF fi.created_ts &&
    decide (fi.size < 2 ^ 64) && decide (fi.mode < 2 ^ 32)

def fiWF : Option FileInfo → Bool
  | none => true
  | some fi => fi.wf

/-- The fields of an `Event` fit their Rust widths: path shorter than
`2 ^ 32` bytes (borsh writes a `u32` length), timestamp in `i128` range,
and a well-formed `FileInfo` if present. -/
def Event.wf (e : Event) : Bool :=
  decide (e.file_path.length < 2 ^ 32) && i128InRange e.solana_ts_received_at &&
    fiWF e.file_info

theorem length_natToLE (k n : Nat) : (natToLE k n).length = k := by
  induction k generalizing n with
  | zero => rfl
  | succ k ih => simp [natToLE, ih]

theorem leToNat_natToLE (k n : Nat) : leToNat (natToLE k n) = n % 256 ^ k := by
  induction k generalizing n with
  | zero => simp [natToLE, leToNat, Nat.mod_one]
  | succ k ih =>
    rw [natToLE, leToNat, ih]
    rw [pow_succ']
    rw [Nat.mod_mul]

theorem takeExact_append (xs r : List Nat) :
    takeExact xs.length (xs ++ r) = some (xs, r) := by
  unfold takeExact
  rw [if_pos (by simp)]
  simp

theorem deserializeU32_round (n : Nat) (hn : n < 2 ^ 32) (r : List Nat) :
    deserializeU32 (serializeU32 n ++ r) = some (n, r) := by
  have h4 := takeExact_append (natToLE 4 n) r
  rw [length_natToLE] at h4
  have hmod : leToNat (natToLE 4 n) % 2 ^ 32 = n := by
    rw [leToNat_natToLE]
    have h : (256 : Nat) ^ 4 = 2 ^ 32 := by norm_num
    rw [h]
    omega
  simp only [deserializeU32, serializeU32, h4, hmod]

theorem deserializeU64_round (n : Nat) (hn : n < 2 ^ 64) (r : List Nat) :
    deserializeU64 (serializeU64 n ++ r) = some (n, r) := by
  have h8 := takeExact_append (natToLE 8 n) r
  rw [length_natToLE] at h8
  have hmod : leToNat (natToLE 8 n) % 2 ^ 64 = n := by
    rw [leToNat_natToLE]
    have h : (256 : Nat) ^ 8 = 2 ^ 64 := by norm_num
    rw [h]
    omega
  simp only [deserializeU64, serializeU64, h8, hmod]

theorem deserializeI128_round (i : Int) (h1 : -(2 ^ 127) ≤ i) (h2 : i < 2 ^ 127)
    (r : List Nat) : deserializeI128 (serializeI128 i ++ r) = some (i, r) := by
  have h16 := takeExact_append (natToLE 16 (i.emod ((2 : Int) ^ 128)).toNat) r
  rw [length_natToLE] at h16
  simp only [deserializeI128, serializeI128, h16, leToNat_natToLE]
  have h256 : (256 : Nat) ^ 16 = 340282366920938463463374607431768211456 := by
    norm_num
  rw [h256]
  have hpowI : ((2 : Int) ^ 128) = 340282366920938463463374607431768211456 := by
    norm_num
  rw [hpowI]
  have hpowN : ((2 : Nat) ^ 128) = 340282366920938463463374607431768211456 := by
    norm_num
  rw [hpowN]
  have hpow127 : ((2 : Nat) ^ 127) = 170141183460469231731687303715884105728 := by
    norm_num
  rw [hpow127]
  have hemod : i.emod (340282366920938463463374607431768211456 : Int) =
      i % (340282366920938463463374607431768211456 : Int) := rfl
  rw [hemod]
  simp only [Option.some.injEq, Prod.mk.injEq]
  split <;> refine And.intro ?_ (by trivial) <;> omega

theorem deserializeEventType_round (t : EventType) (r : List Nat) :
    deserializeEventType (serializeEventType t ++ r) = some (t, r) := by
  cases t <;> rfl

theorem deserializeOption_round {α : Type} {f : List Nat → Option (α × List Nat)}
    {g : α → List Nat} (o : Option α)
    (hf : ∀ a, o = some a → ∀ r2, f (g a ++ r2) = some (a, r2)) (r : List Nat) :
    deserializeOption f (serializeOption g o ++ r) = some (o, r) := by
  cases o with
  | none => rfl
  | some a =>
    simp only [serializeOption, deserializeOption, List.cons_append]
    rw [hf a rfl r]
    rfl

theorem deserializeOptI128_round (o : Option Int) (h : tsWF o = true) (r : List Nat) :
    deserializeOption deserializeI128 (serializeOption serializeI128 o ++ r) =
      some (o, r) := by
  apply deserializeOption_round
  intro a ha r2
  subst ha
  simp only [tsWF, i128InRange, Bool.and_eq_true, decide_eq_true_eq] at h
  exact deserializeI128_round a h.1 h.2 r2

theorem deserializeString_round (s : ByteStr) (hs : s.length < 2 ^ 32) (r : List Nat) :
    deserializeString (serializeString s ++ r) = some (s, r) := by
  simp only [deserializeString, serializeString, List.append_assoc,
    deserializeU32_round s.length hs (s ++ r), takeExact_append]

theorem deserializeFileInfo_round (fi : FileInfo) (h : fi.wf = true) (r : List Nat) :
    deserializeFileInfo (serializeFileInfo fi ++ r) = some (fi, r) := by
  simp only [FileInfo.wf, Bool.and_eq_true, decide_eq_true_eq] at h
  obtain ⟨⟨⟨⟨ha, hm2⟩, hc⟩, hsz⟩, hmo⟩ := h
  simp only [serializeFileInfo, deserializeFileInfo, List.append_assoc,
    deserializeOptI128_round fi.access_ts ha,
    deserializeOptI128_round fi.modify_ts hm2,
    deserializeOptI128_round fi.created_ts hc,
    deserializeU64_round fi.size hsz,
    deserializeU32_round fi.mode hmo]

theorem deserializeOptFileInfo_round (o : Option FileInfo) (h : fiWF o = true)
    (r : List Nat) :
    deserializeOption deserializeFileInfo (serializeOption serializeFileInfo o ++ r) =
      some (o, r) := by
  apply deserializeOption_round
  intro a ha r2
  subst ha
  exact deserializeFileInfo_round a h r2

theorem deserializeEvent_round (e : Event) (h : e.wf = true) (r : List Nat) :
    deserializeEvent (serializeEvent e ++ r) = some (e, r) := by
  simp only [Event.wf, Bool.and_eq_true, decide_eq_true_eq] at h
  obtain ⟨⟨hp, ht⟩, hfi⟩ := h
  simp only [i128InRange, Bool.and_eq_true, decide_eq_true_eq] at ht
  simp only [serializeEvent, deserializeEvent, List.append_assoc,
    deserializeString_round e.file_path hp,
    deserializeEventType_round e.event_type,
    deserializeI128_round e.solana_ts_received_at ht.1 ht.2,
    deserializeOptFileInfo_round e.file_info hfi]

/-- Claim C2: deserializing the serialization of any well-formed `Event`
(any byte-string path of `u32`-representable length, any of the 7 event
types, any `i128` timestamp, any optional `FileInfo` with each timestamp
present or absent) yields the original event. -/
theorem event_roundtrip (e : Event) (h : e.wf = true) :
    deserializeEvent (serializeEvent e) = some (e, []) := by
  have hr := deserializeEvent_round e h []
  rwa [List.append_nil] at hr

set_option maxRecDepth 4000 in
/-- Witness for C2: the round trip of the event used by the repository's
own `test_event_serialization` (path `"name.txt"`, type `MovedTo`,
timestamp `55543119`, partial `FileInfo`). -/
theorem event_roundtrip_witness :
    deserializeEvent (serializeEvent
      ⟨[110, 97, 109, 101, 46, 116, 120, 116], EventType.MovedTo, 55543119,
        some ⟨some 34242, some 2221212, none, 100000000, 433⟩⟩) =
      some (⟨[110, 97, 109, 101, 46, 116, 120, 116], EventType.MovedTo, 55543119,
        some ⟨some 34242, some 2221212, none, 100000000, 433⟩⟩, []) :=
  event_roundtrip
    ⟨[110, 97, 109, 101, 46, 116, 120, 116], EventType.MovedTo, 55543119,
      some ⟨some 34242, some 2221212, none, 100000000, 433⟩⟩ (by decide)

/-! ## The ledger map

`AccountData.last_file_events` is a `HashMap<String, Event>`.  Its content
is represented canonically as an association list strictly sorted by the
byte-lexicographic key order (`Ord` on Rust strings) — the order borsh uses
when serializing a `HashMap` — with `mapInsert` giving `HashMap::insert`'s
replace-or-add semantics. -/

/-- Byte-lexicographic strict order on keys (Rust `String` `Ord`). -/
def keyLt : ByteStr → ByteStr → Bool
  | [], [] => false
  | [], _ :: _ => true
  | _ :: _, [] => false
  | a :: as, b :: bs => if a < b then true else if b < a then false else keyLt as bs

theorem keyLt_irrefl (k : ByteStr) : keyLt k k = false := by
  induction k with
  | nil => rfl
  | cons a as ih => simp [keyLt, ih]

theorem keyLt_ne {a b : ByteStr} (h : keyLt a b = true) : a ≠ b := by
  intro he
  subst he
  rw [keyLt_irrefl] at h
  cases h

theorem keyLt_trans {a : ByteStr} : ∀ {b c : ByteStr},
    keyLt a b = true → keyLt b c = true → keyLt a c = true := by
  induction a with
  | nil =>
    intro b c hab hbc
    cases b with
    | nil => cases hab
    | cons b0 bs =>
      cases c with
      | nil => cases hbc
      | cons c0 cs => rfl
  | cons a0 as ih =>
    intro b c hab hbc
    cases b with
    | nil => cases hab
    | cons b0 bs =>
      cases c with
      | nil => cases hbc
      | cons c0 cs =>
        simp only [keyLt] at hab hbc ⊢
        split at hab
        · rename_i h1
          split at hbc
          · rename_i h2
            rw [if_pos (by omega)]
          · split at hbc
            · cases hbc
            · rename_i h2 h3
              have hbc0 : b0 = c0 := by omega
              rw [if_pos (by omega)]
        · split at hab
          · cases hab
          · rename_i h1 h2
            have hab0 : a0 = b0 := by omega
            split at hbc
            · rename_i h3
              rw [if_pos (by omega)]
            · split at hbc
              · cases hbc
              · rename_i h3 h4
                have hbc0 : b0 = c0 := by omega
                rw [if_neg (by omega), if_neg (by omega)]
                exact ih hab hbc

theorem keyLt_asymm {a b : ByteStr} (h : keyLt a b = true) : keyLt b a = false := by
  cases hba : keyLt b a with
  | false => rfl
  | true =>
    have := keyLt_trans h hba
    rw [keyLt_irrefl] at this
    cases this

theorem keyLt_conn {a b : ByteStr} : keyLt a b = false → a ≠ b → keyLt b a = true := by
  induction a generalizing b with
  | nil =>
    intro h1 h2
    cases b with
    | nil => exact absurd rfl h2
    | cons b0 bs => cases h1
  | cons a0 as ih =>
    intro h1 h2
    cases b with
    | nil => rfl
    | cons b0 bs =>
      simp only [keyLt] at h1 ⊢
      split at h1
      · cases h1
      · split at h1
        · rename_i h3 h4
          rw [if_pos h4]
        · rename_i h3 h4
          have he : b0 = a0 := by omega
          subst he
          rw [if_neg (by omega), if_neg (by omega)]
          apply ih h1
          intro he2
          exact h2 (by rw [he2])

/-- `HashMap::insert` on the canonical sorted representation: replace the
entry for an existing key, otherwise add the entry at its sorted
position. -/
def mapInsert : List (ByteStr × Event) → ByteStr → Event → List (ByteStr × Event)
  | [], k, v => [(k, v)]
  | (k0, v0) :: rest, k, v =>
    if keyLt k k0 then (k, v) :: (k0, v0) :: rest
    else if k = k0 then (k, v) :: rest
    else (k0, v0) :: mapInsert rest k v

/-- Number of entries stored under key `k` ("map size for that path's
bucket"). -/
def countKey (m : List (ByteStr × Event)) (k : ByteStr) : Nat :=
  match m with
  | [] => 0
  | (k0, _) :: rest => (if k0 = k then 1 else 0) + countKey rest k

/-- The canonical-representation invariant: keys strictly increasing. -/
def mapSorted (m : List (ByteStr × Event)) : Prop :=
  m.Pairwise fun a b => keyLt a.1 b.1 = true

theorem mem_mapInsert {m : List (ByteStr × Event)} {k : ByteStr} {v : Event}
    {x : ByteStr × Event} (h : x ∈ mapInsert m k v) : x ∈ m ∨ x = (k, v) := by
  induction m with
  | nil =>
    simp [mapInsert] at h
    exact Or.inr h
  | cons kv rest ih =>
    obtain ⟨k0, v0⟩ := kv
    by_cases h1 : keyLt k k0 = true
    · rw [mapInsert, if_pos h1] at h
      rcases List.mem_cons.mp h with h2 | h2
      · exact Or.inr h2
      · exact Or.inl h2
    · by_cases h2 : k = k0
      · rw [mapInsert, if_neg h1, if_pos h2] at h
        rcases List.mem_cons.mp h with h3 | h3
        · exact Or.inr h3
        · exact Or.inl (List.mem_cons_of_mem _ h3)
      · rw [mapInsert, if_neg h1, if_neg h2] at h
        rcases List.mem_cons.mp h with h3 | h3
        · exact Or.inl (by simp [h3])
        · rcases ih h3 with h4 | h4
          · exact Or.inl (List.mem_cons_of_mem _ h4)
          · exact Or.inr h4

theorem mapInsert_sorted {m : List (ByteStr × Event)} {k : ByteStr} {v : Event}
    (h : mapSorted m) : mapSorted (mapInsert m k v) := by
  induction m with
  | nil => simp [mapInsert, mapSorted]
  | cons kv rest ih =>
    obtain ⟨k0, v0⟩ := kv
    rw [mapSorted, List.pairwise_cons] at h
    obtain ⟨hrel, hrest⟩ := h
    rw [mapSorted]
    simp only [mapInsert]
    split
    · rename_i hlt
      rw [List.pairwise_cons]
      constructor
      · intro x hx
        rcases List.mem_cons.mp hx with h2 | h2
        · rw [h2]
          exact hlt
        · exact keyLt_trans hlt (hrel x h2)
      · rw [List.pairwise_cons]
        exact ⟨hrel, hrest⟩
    · split
      · rename_i hlt heq
        subst heq
        rw [List.pairwise_cons]
        exact ⟨hrel, hrest⟩
      · rename_i hlt heq
        rw [List.pairwise_cons]
        constructor
        · intro x hx
          rcases mem_mapInsert hx with h2 | h2
          · exact hrel x h2
          · rw [h2]
            exact keyLt_conn (Bool.eq_false_iff.mpr hlt) heq
        · exact ih hrest

theorem assocLookup_mapInsert_self (m : List (ByteStr × Event)) (k : ByteStr)
    (v : Event) : assocLookup (mapInsert m k v) k = some v := by
  induction m with
  | nil => simp [mapInsert, assocLookup]
  | cons kv rest ih =>
    obtain ⟨k0, v0⟩ := kv
    simp only [mapInsert]
    split
    · simp [assocLookup]
    · split
      · simp [assocLookup]
      · rename_i hlt heq
        simp only [assocLookup]
        rw [if_neg (fun he => heq he.symm)]
        exact ih

theorem assocLookup_mapInsert_ne (m : List (ByteStr × Event)) (k q : ByteStr)
    (v : Event) (hq : q ≠ k) :
    assocLookup (mapInsert m k v) q = assocLookup m q := by
  induction m with
  | nil =>
    simp only [mapInsert, assocLookup]
    rw [if_neg (fun he => hq he.symm)]
  | cons kv rest ih =>
    obtain ⟨k0, v0⟩ := kv
    simp only [mapInsert]
    split
    · simp only [assocLookup]
      rw [if_neg (fun he => hq he.symm)]
    · split
      · rename_i hlt heq
        subst heq
        simp only [assocLookup]
        rw [if_neg (fun he => hq he.symm), if_neg (fun he => hq he.symm)]
      · simp only [assocLookup]
        split
        · rfl
        · exact ih

theorem countKey_eq_zero {m : List (ByteStr × Event)} {k : ByteStr}
    (h : ∀ x ∈ m, x.1 ≠ k) : countKey m k = 0 := by
  induction m with
  | nil => rfl
  | cons kv rest ih =>
    obtain ⟨k0, v0⟩ := kv
    simp only [countKey]
    rw [if_neg (h (k0, v0) (by simp))]
    simpa using ih fun x hx => h x (List.mem_cons_of_mem _ hx)

theorem countKey_mapInsert_self {m : List (ByteStr × Event)} {k : ByteStr}
    {v : Event} (h : mapSorted m) : countKey (mapInsert m k v) k = 1 := by
  induction m with
  | nil => simp [mapInsert, countKey]
  | cons kv rest ih =>
    obtain ⟨k0, v0⟩ := kv
    rw [mapSorted, List.pairwise_cons] at h
    obtain ⟨hrel, hrest⟩ := h
    by_cases h1 : keyLt k k0 = true
    · rw [mapInsert, if_pos h1]
      have hz : countKey ((k0, v0) :: rest) k = 0 := by
        apply countKey_eq_zero
        intro x hx
        rcases List.mem_cons.mp hx with h2 | h2
        · rw [h2]
          exact fun he => keyLt_ne h1 he.symm
        · exact fun he => keyLt_ne (keyLt_trans h1 (hrel x h2)) he.symm
      rw [countKey, hz, if_pos rfl]
    · by_cases h2 : k = k0
      · subst h2
        rw [mapInsert, if_neg h1, if_pos rfl]
        have hz : countKey rest k = 0 := by
          apply countKey_eq_zero
          intro x hx
          exact fun he => keyLt_ne (hrel x hx) he.symm
        rw [countKey, hz, if_pos rfl]
      · rw [mapInsert, if_neg h1, if_neg h2]
        rw [countKey, ih hrest, if_neg (fun he => h2 he.symm)]

/-! ## `process_add_event` (`solana_program/src/processor.rs`) -/

/-- `AccountData` from `processor.rs`: the vault account's content, a map
from file path to the latest event for that path. -/
structure AccountData where
  last_file_events : List (ByteStr × Event)
deriving DecidableEq

/-- One serialized map entry: the key string, then the event. -/
def serializeEntry (kv : ByteStr × Event) : List Nat :=
  serializeString kv.1 ++ serializeEvent kv.2

/-- Borsh `HashMap` serialization: `u32` entry count, then the entries in
sorted key order (the canonical representation is already sorted). -/
def serializeAccountData (d : AccountData) : List Nat :=
  serializeU32 d.last_file_events.length
    ++ (d.last_file_events.map serializeEntry).flatten

/-- Read `c` serialized map entries. -/
def deserializeEntries :
    Nat → List Nat → Option (List (ByteStr × Event) × List Nat)
  | 0, bs => some ([], bs)
  | c + 1, bs =>
    match deserializeString bs with
    | none => none
    | some (k, r1) =>
      match deserializeEvent r1 with
      | none => none
      | some (v, r2) =>
        match deserializeEntries c r2 with
        | none => none
        | some (es, r3) => some ((k, v) :: es, r3)

/-- Collect decoded entries into the map, as `HashMap`'s `FromIterator`
does: later pairs with an equal key replace earlier ones. -/
def foldIntoMap (es : List (ByteStr × Event)) : List (ByteStr × Event) :=
  es.foldl (fun m kv => mapInsert m kv.1 kv.2) []

/-- `AccountData::try_from_slice`: read the count and the entries and
require the whole input to be consumed. -/
def deserializeAccountData (bs : List Nat) : Option AccountData :=
  match deserializeU32 bs with
  | none => none
  | some (c, r1) =>
    match deserializeEntries c r1 with
    | none => none
    | some (es, r2) => if r2 = [] then some ⟨foldIntoMap es⟩ else none

/-- `AccountInfo::realloc(new_len, false)` on the backing byte buffer: the
buffer is exactly `new_len` bytes afterwards (truncated, or grown with
zero fill). -/
def realloc (data : List Nat) (newLen : Nat) : List Nat :=
  if newLen ≤ data.length then data.take newLen
  else data ++ List.replicate (newLen - data.length) 0

/-- `data[..].copy_from_slice(&serialized)`: requires equal lengths (a
length mismatch panics), and the destination then holds exactly the
source bytes. -/
def copyFromSlice (dst src : List Nat) : Option (List Nat) :=
  if dst.length = src.length then some src else none

/-- The storage-level core of `process_add_event` (processor.rs, lines
137–166): deserialize the vault bytes (falling back to the default empty
map on failure), insert the event under its `file_path`, serialize, grow
the storage to the serialized length, and write the bytes.  The result is
the new vault content, `none` modelling a panic of the final copy. -/
def process_add_event (bs : List Nat) (event : Event) : Option (List Nat) :=
  let vault_data := (deserializeAccountData bs).getD ⟨[]⟩
  let vault_data2 : AccountData :=
    ⟨mapInsert vault_data.last_file_events event.file_path event⟩
  let serialized := serializeAccountData vault_data2
  copyFromSlice (realloc bs serialized.length) serialized

/-- The map a ledger state denotes: its deserialization, or the empty map
when deserialization fails (same fallback as `process_add_event`). -/
def entriesOf (bs : List Nat) : List (ByteStr × Event) :=
  ((deserializeAccountData bs).getD ⟨[]⟩).last_file_events

/-- Well-formedness of a stored map entry: `u32`-representable key length
and a well-formed event. -/
def entryWF (kv : ByteStr × Event) : Bool :=
  decide (kv.1.length < 2 ^ 32) && kv.2.wf

theorem realloc_length (data : List Nat) (newLen : Nat) :
    (realloc data newLen).length = newLen := by
  unfold realloc
  split
  · rename_i h
    rw [List.length_take]
    omega
  · rename_i h
    rw [List.length_append, List.length_replicate]
    omega

theorem process_add_event_eq (bs : List Nat) (e : Event) :
    process_add_event bs e =
      some (serializeAccountData ⟨mapInsert (entriesOf bs) e.file_path e⟩) := by
  unfold process_add_event copyFromSlice entriesOf
  rw [if_pos (realloc_length _ _)]

theorem deserializeEntries_round (m : List (ByteStr × Event))
    (h : ∀ kv ∈ m, entryWF kv = true) (r : List Nat) :
    deserializeEntries m.length ((m.map serializeEntry).flatten ++ r) =
      some (m, r) := by
  induction m with
  | nil => rfl
  | cons kv rest ih =>
    obtain ⟨k, v⟩ := kv
    have hkv := h (k, v) (by simp)
    rw [entryWF, Bool.and_eq_true, decide_eq_true_eq] at hkv
    simp only [List.map_cons, List.flatten_cons, List.length_cons,
      serializeEntry, List.append_assoc]
    simp only [deserializeEntries,
      deserializeString_round k hkv.1,
      deserializeEvent_round v hkv.2,
      ih fun kv2 hkv2 => h kv2 (List.mem_cons_of_mem _ hkv2)]

theorem mapInsert_append {m : List (ByteStr × Event)} {k : ByteStr} {v : Event}
    (hall : ∀ x ∈ m, keyLt x.1 k = true) : mapInsert m k v = m ++ [(k, v)] := by
  induction m with
  | nil => rfl
  | cons kv rest ih =>
    obtain ⟨k0, v0⟩ := kv
    have h0 : keyLt k0 k = true := hall (k0, v0) (by simp)
    rw [mapInsert, if_neg (by rw [keyLt_asymm h0]; simp),
      if_neg (fun he => keyLt_ne h0 he.symm)]
    rw [ih fun x hx => hall x (List.mem_cons_of_mem _ hx)]
    rfl

theorem foldIntoMap_sorted_id (m : List (ByteStr × Event)) (h : mapSorted m) :
    foldIntoMap m = m := by
  suffices haux : ∀ (rest acc : List (ByteStr × Event)), mapSorted (acc ++ rest) →
      rest.foldl (fun m2 kv => mapInsert m2 kv.1 kv.2) acc = acc ++ rest by
    simpa [foldIntoMap] using haux m [] (by simpa)
  intro rest
  induction rest with
  | nil =>
    intro acc h2
    simp
  | cons kv rest2 ih =>
    intro acc h2
    obtain ⟨k, v⟩ := kv
    have hall : ∀ x ∈ acc, keyLt x.1 k = true := by
      intro x hx
      exact (List.pairwise_append.mp h2).2.2 x hx (k, v) (by simp)
    simp only [List.foldl_cons]
    rw [mapInsert_append hall]
    have h3 : mapSorted ((acc ++ [(k, v)]) ++ rest2) := by
      rw [List.append_assoc]
      simpa using h2
    rw [ih (acc ++ [(k, v)]) h3, List.append_assoc]
    rfl

theorem foldIntoMap_go_sorted (es : List (ByteStr × Event)) :
    ∀ acc, mapSorted acc →
      mapSorted (es.foldl (fun m2 kv => mapInsert m2 kv.1 kv.2) acc) := by
  induction es with
  | nil => intro acc h; simpa using h
  | cons kv rest ih =>
    intro acc h
    simp only [List.foldl_cons]
    exact ih _ (mapInsert_sorted h)

theorem foldIntoMap_sorted (es : List (ByteStr × Event)) :
    mapSorted (foldIntoMap es) :=
  foldIntoMap_go_sorted es [] (by simp [mapSorted])

theorem mem_foldIntoMap_go (es : List (ByteStr × Event)) :
    ∀ acc x, x ∈ es.foldl (fun m2 kv => mapInsert m2 kv.1 kv.2) acc →
      x ∈ acc ∨ x ∈ es := by
  induction es with
  | nil =>
    intro acc x h
    exact Or.inl (by simpa using h)
  | cons kv rest ih =>
    intro acc x h
    simp only [List.foldl_cons] at h
    rcases ih _ x h with h2 | h2
    · rcases mem_mapInsert h2 with h3 | h3
      · exact Or.inl h3
      · exact Or.inr (by simp [h3])
    · exact Or.inr (List.mem_cons_of_mem _ h2)

theorem mem_foldIntoMap {es : List (ByteStr × Event)} {x : ByteStr × Event}
    (h : x ∈ foldIntoMap es) : x ∈ es := by
  rcases mem_foldIntoMap_go es [] x h with h2 | h2
  · cases h2
  · exact h2

theorem length_mapInsert (m : List (ByteStr × Event)) (k : ByteStr) (v : Event) :
    (mapInsert m k v).length ≤ m.length + 1 := by
  induction m with
  | nil => simp [mapInsert]
  | cons kv rest ih =>
    obtain ⟨k0, v0⟩ := kv
    by_cases h1 : keyLt k k0 = true
    · rw [mapInsert, if_pos h1]
      simp
    · by_cases h2 : k = k0
      · rw [mapInsert, if_neg h1, if_pos h2]
        simp
      · rw [mapInsert, if_neg h1, if_neg h2]
        simp only [List.length_cons]
        omega

theorem length_foldIntoMap_go (es : List (ByteStr × Event)) :
    ∀ acc, (es.foldl (fun m2 kv => mapInsert m2 kv.1 kv.2) acc).length ≤
      acc.length + es.length := by
  induction es with
  | nil => intro acc; simp
  | cons kv rest ih =>
    intro acc
    simp only [List.foldl_cons, List.length_cons]
    have h1 := ih (mapInsert acc kv.1 kv.2)
    have h2 := length_mapInsert acc kv.1 kv.2
    omega

theorem length_foldIntoMap (es : List (ByteStr × Event)) :
    (foldIntoMap es).length ≤ es.length := by
  simpa using length_foldIntoMap_go es []

theorem deserializeAccountData_round (m : List (ByteStr × Event))
    (hs : mapSorted m) (hlen : m.length < 2 ^ 32)
    (hwf : ∀ kv ∈ m, entryWF kv = true) :
    deserializeAccountData (serializeAccountData ⟨m⟩) = some ⟨m⟩ := by
  have h1 := deserializeEntries_round m hwf []
  rw [List.append_nil] at h1
  simp only [deserializeAccountData, serializeAccountData,
    deserializeU32_round m.length hlen, h1,
    foldIntoMap_sorted_id m hs]
  simp

theorem takeExact_inv {k : Nat} {bs x r : List Nat}
    (h : takeExact k bs = some (x, r)) :
    x.length = k ∧ r.length + k = bs.length := by
  unfold takeExact at h
  split at h
  · rename_i hle
    simp only [Option.some.injEq, Prod.mk.injEq] at h
    obtain ⟨hx, hr⟩ := h
    subst hx
    subst hr
    rw [List.length_take, List.length_drop]
    omega
  · cases h

theorem deserializeU32_inv {bs : List Nat} {n : Nat} {r : List Nat}
    (h : deserializeU32 bs = some (n, r)) :
    n < 2 ^ 32 ∧ r.length + 4 = bs.length := by
  unfold deserializeU32 at h
  split at h
  · cases h
  · rename_i x r2 hp
    simp only [Option.some.injEq, Prod.mk.injEq] at h
    obtain ⟨hn, hr⟩ := h
    subst hn
    subst hr
    obtain ⟨_, h2⟩ := takeExact_inv hp
    exact ⟨Nat.mod_lt _ (by norm_num), h2⟩

theorem deserializeU64_inv {bs : List Nat} {n : Nat} {r : List Nat}
    (h : deserializeU64 bs = some (n, r)) :
    n < 2 ^ 64 ∧ r.length + 8 = bs.length := by
  unfold deserializeU64 at h
  split at h
  · cases h
  · rename_i x r2 hp
    simp only [Option.some.injEq, Prod.mk.injEq] at h
    obtain ⟨hn, hr⟩ := h
    subst hn
    subst hr
    obtain ⟨_, h2⟩ := takeExact_inv hp
    exact ⟨Nat.mod_lt _ (by norm_num), h2⟩

theorem deserializeI128_inv {bs : List Nat} {i : Int} {r : List Nat}
    (h : deserializeI128 bs = some (i, r)) :
    i128InRange i = true ∧ r.length + 16 = bs.length := by
  unfold deserializeI128 at h
  split at h
  · cases h
  · rename_i x r2 hp
    simp only [Option.some.injEq, Prod.mk.injEq] at h
    obtain ⟨hi, hr⟩ := h
    subst hr
    obtain ⟨_, h2⟩ := takeExact_inv hp
    refine ⟨?_, h2⟩
    subst hi
    rw [i128InRange, Bool.and_eq_true, decide_eq_true_eq, decide_eq_true_eq]
    have hn : leToNat x % 2 ^ 128 < 2 ^ 128 := Nat.mod_lt _ (by norm_num)
    constructor
    · split <;> omega
    · split <;> omega

theorem deserializeEventType_inv {bs : List Nat} {t : EventType} {r : List Nat}
    (h : deserializeEventType bs = some (t, r)) : r.length + 1 = bs.length := by
  unfold deserializeEventType at h
  split at h
  · cases h
  · rename_i tag r2
    split at h
    · cases h
    · simp only [Option.some.injEq, Prod.mk.injEq] at h
      obtain ⟨_, hr⟩ := h
      subst hr
      simp

theorem deserializeOption_inv {α : Type} {f : List Nat → Option (α × List Nat)}
    (hf : ∀ {bs2 : List Nat} {a : α} {r2 : List Nat},
      f bs2 = some (a, r2) → r2.length ≤ bs2.length)
    {bs : List Nat} {o : Option α} {r : List Nat}
    (h : deserializeOption f bs = some (o, r)) : r.length + 1 ≤ bs.length := by
  unfold deserializeOption at h
  split at h
  · cases h
  · rename_i flag r2
    split at h
    · simp only [Option.some.injEq, Prod.mk.injEq] at h
      obtain ⟨_, hr⟩ := h
      subst hr
      simp
    · split at h
      · split at h
        · cases h
        · rename_i a r3 hp
          simp only [Option.some.injEq, Prod.mk.injEq] at h
          obtain ⟨_, hr⟩ := h
          subst hr
          have := hf hp
          simp only [List.length_cons]
          omega
      · cases h

theorem deserializeOption_val {α : Type} {P : α → Prop}
    {f : List Nat → Option (α × List Nat)}
    (hf : ∀ {bs2 : List Nat} {a : α} {r2 : List Nat}, f bs2 = some (a, r2) → P a)
    {bs : List Nat} {o : Option α} {r : List Nat}
    (h : deserializeOption f bs = some (o, r)) : ∀ a, o = some a → P a := by
  intro a ha
  subst ha
  unfold deserializeOption at h
  split at h
  · cases h
  · rename_i flag r2
    split at h
    · simp at h
    · split at h
      · split at h
        · cases h
        · rename_i a2 r3 hp
          simp only [Option.some.injEq, Prod.mk.injEq, Option.some.injEq] at h
          obtain ⟨ha2, _⟩ := h
          subst ha2
          exact hf hp
      · cases h

theorem deserializeString_inv {bs : List Nat} {s : ByteStr} {r : List Nat}
    (h : deserializeString bs = some (s, r)) :
    s.length < 2 ^ 32 ∧ r.length + 4 ≤ bs.length := by
  unfold deserializeString at h
  split at h
  · cases h
  · rename_i len r1 hp
    obtain ⟨hlen, hr1⟩ := deserializeU32_inv hp
    obtain ⟨hs, hr⟩ := takeExact_inv h
    constructor
    · omega
    · omega

theorem deserializeI128_rest {bs : List Nat} {i : Int} {r : List Nat}
    (h : deserializeI128 bs = some (i, r)) : r.length ≤ bs.length := by
  have := (deserializeI128_inv h).2
  omega

theorem deserializeFileInfo_inv {bs : List Nat} {fi : FileInfo} {r : List Nat}
    (h : deserializeFileInfo bs = some (fi, r)) :
    fi.wf = true ∧ r.length ≤ bs.length := by
  unfold deserializeFileInfo at h
  split at h
  · cases h
  · rename_i a_ts r1 hp1
    split at h
    · cases h
    · rename_i m_ts r2 hp2
      split at h
      · cases h
      · rename_i c_ts r3 hp3
        split at h
        · cases h
        · rename_i sz r4 hp4
          split at h
          · cases h
          · rename_i md r5 hp5
            simp only [Option.some.injEq, Prod.mk.injEq] at h
            obtain ⟨hfi, hr⟩ := h
            subst hfi
            subst hr
            have ha := deserializeOption_val (fun hx => (deserializeI128_inv hx).1) hp1
            have hm := deserializeOption_val (fun hx => (deserializeI128_inv hx).1) hp2
            have hc := deserializeOption_val (fun hx => (deserializeI128_inv hx).1) hp3
            have h1 := deserializeOption_inv (fun hx => deserializeI128_rest hx) hp1
            have h2 := deserializeOption_inv (fun hx => deserializeI128_rest hx) hp2
            have h3 := deserializeOption_inv (fun hx => deserializeI128_rest hx) hp3
            have h4 := (deserializeU64_inv hp4).2
            have h5 := (deserializeU32_inv hp5).2
            constructor
            · rw [FileInfo.wf]
              simp only [Bool.and_eq_true, decide_eq_true_eq]
              refine ⟨⟨⟨⟨?_, ?_⟩, ?_⟩, (deserializeU64_inv hp4).1⟩,
                (deserializeU32_inv hp5).1⟩
              · cases a_ts with
                | none => rfl
                | some a => exact ha a rfl
              · cases m_ts with
                | none => rfl
                | some a => exact hm a rfl
              · cases c_ts with
                | none => rfl
                | some a => exact hc a rfl
            · omega

theorem deserializeEvent_inv {bs : List Nat} {e : Event} {r : List Nat}
    (h : deserializeEvent bs = some (e, r)) :
    e.wf = true ∧ r.length + 4 ≤ bs.length := by
  unfold deserializeEvent at h
  split at h
  · cases h
  · rename_i fp r1 hp1
    split at h
    · cases h
    · rename_i et r2 hp2
      split at h
      · cases h
      · rename_i ts r3 hp3
        split at h
        · cases h
        · rename_i fi r4 hp4
          simp only [Option.some.injEq, Prod.mk.injEq] at h
          obtain ⟨he, hr⟩ := h
          subst he
          subst hr
          obtain ⟨hfp, hr1⟩ := deserializeString_inv hp1
          have hr2 := deserializeEventType_inv hp2
          obtain ⟨hts, hr3⟩ := deserializeI128_inv hp3
          have hfi := deserializeOption_val
            (fun hx => (deserializeFileInfo_inv hx).1) hp4
          have hr4 := deserializeOption_inv
            (fun hx => (deserializeFileInfo_inv hx).2) hp4
          constructor
          · rw [Event.wf]
            simp only [Bool.and_eq_true, decide_eq_true_eq]
            refine ⟨⟨hfp, hts⟩, ?_⟩
            cases fi with
            | none => rfl
            | some f => exact hfi f rfl
          · omega

theorem deserializeEntries_inv {c : Nat} :
    ∀ {bs : List Nat} {es : List (ByteStr × Event)} {r : List Nat},
      deserializeEntries c bs = some (es, r) →
      es.length = c ∧ (∀ kv ∈ es, entryWF kv = true) ∧ c + r.length ≤ bs.length := by
  induction c with
  | zero =>
    intro bs es r h
    simp only [deserializeEntries, Option.some.injEq, Prod.mk.injEq] at h
    obtain ⟨hes, hr⟩ := h
    subst hes
    subst hr
    exact ⟨rfl, by simp, by omega⟩
  | succ c ih =>
    intro bs es r h
    rw [deserializeEntries] at h
    split at h
    · cases h
    · rename_i k r1 hp1
      split at h
      · cases h
      · rename_i v r2 hp2
        split at h
        · cases h
        · rename_i es2 r3 hp3
          simp only [Option.some.injEq, Prod.mk.injEq] at h
          obtain ⟨hes, hr⟩ := h
          subst hes
          subst hr
          obtain ⟨hk, hr1⟩ := deserializeString_inv hp1
          obtain ⟨hv, hr2⟩ := deserializeEvent_inv hp2
          obtain ⟨hlen2, hwf2, hr3⟩ := ih hp3
          refine ⟨by simp [hlen2], ?_, by omega⟩
          intro kv hkv
          rcases List.mem_cons.mp hkv with h2 | h2
          · rw [h2, entryWF, Bool.and_eq_true, decide_eq_true_eq]
            exact ⟨hk, hv⟩
          · exact hwf2 kv h2

theorem deserializeAccountData_inv {bs : List Nat} {d : AccountData}
    (h : deserializeAccountData bs = some d) :
    mapSorted d.last_file_events ∧
      (∀ kv ∈ d.last_file_events, entryWF kv = true) ∧
      d.last_file_events.length + 4 ≤ bs.length := by
  unfold deserializeAccountData at h
  split at h
  · cases h
  · rename_i c r1 hp1
    split at h
    · cases h
    · rename_i es r2 hp2
      split at h
      · simp only [Option.some.injEq] at h
        subst h
        obtain ⟨_, hr1⟩ := deserializeU32_inv hp1
        obtain ⟨hlen2, hwf2, hr2⟩ := deserializeEntries_inv hp2
        refine ⟨foldIntoMap_sorted es, ?_, ?_⟩
        · intro kv hkv
          exact hwf2 kv (mem_foldIntoMap hkv)
        · have := length_foldIntoMap es
          simp only
          omega
      · cases h

theorem entriesOf_sorted (bs : List Nat) : mapSorted (entriesOf bs) := by
  unfold entriesOf
  cases hd : deserializeAccountData bs with
  | none => simp [mapSorted]
  | some d => simpa using (deserializeAccountData_inv hd).1

theorem entriesOf_wf (bs : List Nat) :
    ∀ kv ∈ entriesOf bs, entryWF kv = true := by
  unfold entriesOf
  cases hd : deserializeAccountData bs with
  | none => simp
  | some d => simpa using (deserializeAccountData_inv hd).2.1

theorem entriesOf_length (bs : List Nat) :
    entriesOf bs = [] ∨ (entriesOf bs).length + 4 ≤ bs.length := by
  unfold entriesOf
  cases hd : deserializeAccountData bs with
  | none => simp
  | some d => exact Or.inr (by simpa using (deserializeAccountData_inv hd).2.2)

theorem entriesOf_serialize (M : List (ByteStr × Event)) (hs : mapSorted M)
    (hlen : M.length < 2 ^ 32) (hw : ∀ kv ∈ M, entryWF kv = true) :
    entriesOf (serializeAccountData ⟨M⟩) = M := by
  rw [entriesOf, deserializeAccountData_round M hs hlen hw]
  rfl

theorem mapInsert_entryWF {m : List (ByteStr × Event)} {e : Event}
    (hm : ∀ kv ∈ m, entryWF kv = true) (he : e.wf = true) :
    ∀ kv ∈ mapInsert m e.file_path e, entryWF kv = true := by
  intro kv hkv
  rcases mem_mapInsert hkv with h2 | h2
  · exact hm kv h2
  · rw [h2, entryWF, Bool.and_eq_true, decide_eq_true_eq]
    have he2 := he
    rw [Event.wf, Bool.and_eq_true, Bool.and_eq_true, decide_eq_true_eq] at he2
    exact ⟨he2.1.1, he⟩

/-- Claim C9: on every upsert the storage region is resized to exactly the
serialized length of the updated map before the bytes are written (so the
write's length check succeeds), and after the upsert the storage holds
exactly the serialization of the updated map. -/
theorem storage_exact_fit (bs : List Nat) (e : Event) :
    (realloc bs (serializeAccountData
        ⟨mapInsert (entriesOf bs) e.file_path e⟩).length).length =
      (serializeAccountData ⟨mapInsert (entriesOf bs) e.file_path e⟩).length ∧
    process_add_event bs e =
      some (serializeAccountData ⟨mapInsert (entriesOf bs) e.file_path e⟩) :=
  ⟨realloc_length _ _, process_add_event_eq bs e⟩

/-- Claim C8: when the current storage bytes fail to deserialize (e.g.
empty or uninitialized storage), the upsert treats the state as an empty
map and completes; the resulting storage denotes the map with exactly the
one entry keyed by the event's path and equal to the event. -/
theorem first_use_bootstrap (bs : List Nat) (e : Event)
    (hfail : deserializeAccountData bs = none) (he : e.wf = true) :
    ∃ out, process_add_event bs e = some out ∧
      entriesOf out = [(e.file_path, e)] := by
  have h0 : entriesOf bs = [] := by
    rw [entriesOf, hfail]
    rfl
  refine ⟨_, process_add_event_eq bs e, ?_⟩
  rw [h0]
  have hm : mapInsert ([] : List (ByteStr × Event)) e.file_path e =
      [(e.file_path, e)] := rfl
  rw [hm]
  apply entriesOf_serialize
  · simp [mapSorted]
  · norm_num
  · intro kv hkv
    rw [List.mem_singleton] at hkv
    rw [hkv, entryWF, Bool.and_eq_true, decide_eq_true_eq]
    have he2 := he
    rw [Event.wf, Bool.and_eq_true, Bool.and_eq_true, decide_eq_true_eq] at he2
    exact ⟨he2.1.1, he⟩

set_option maxRecDepth 4000 in
/-- Witness for C8: upserting a concrete event into empty storage. -/
theorem first_use_bootstrap_witness :
    ∃ out, process_add_event [] ⟨[97], EventType.Written, 100, none⟩ = some out ∧
      entriesOf out = [([97], ⟨[97], EventType.Written, 100, none⟩)] :=
  first_use_bootstrap [] ⟨[97], EventType.Written, 100, none⟩ rfl (by decide)

/-- Claim C1: applying upsert with event `A` and then with event `B` for
the same path leaves the ledger with exactly one entry for that path, equal
to `B` (never `A`); with `A = B` this is the idempotence-of-structure law. -/
theorem ledger_replace_law (bs : List Nat) (A B : Event)
    (hlen : bs.length < 2 ^ 32) (hA : A.wf = true) (hB : B.wf = true)
    (hpath : A.file_path = B.file_path) :
    ∃ bs1 bs2, process_add_event bs A = some bs1 ∧
      process_add_event bs1 B = some bs2 ∧
      assocLookup (entriesOf bs2) B.file_path = some B ∧
      countKey (entriesOf bs2) B.file_path = 1 := by
  have hlen0 : (entriesOf bs).length + 2 < 2 ^ 32 := by
    rcases entriesOf_length bs with h | h
    · rw [h]
      norm_num
    · omega
  have hins1 := length_mapInsert (entriesOf bs) A.file_path A
  have hm1 : (mapInsert (entriesOf bs) A.file_path A).length < 2 ^ 32 := by omega
  have hs1 : mapSorted (mapInsert (entriesOf bs) A.file_path A) :=
    mapInsert_sorted (entriesOf_sorted bs)
  have hE1 : entriesOf (serializeAccountData
      ⟨mapInsert (entriesOf bs) A.file_path A⟩) =
      mapInsert (entriesOf bs) A.file_path A :=
    entriesOf_serialize _ hs1 hm1 (mapInsert_entryWF (entriesOf_wf bs) hA)
  have hins2 := length_mapInsert (mapInsert (entriesOf bs) A.file_path A)
    B.file_path B
  have hm2 : (mapInsert (mapInsert (entriesOf bs) A.file_path A)
      B.file_path B).length < 2 ^ 32 := by omega
  have hs2 : mapSorted (mapInsert (mapInsert (entriesOf bs) A.file_path A)
      B.file_path B) := mapInsert_sorted hs1
  have hE2 : entriesOf (serializeAccountData
      ⟨mapInsert (mapInsert (entriesOf bs) A.file_path A) B.file_path B⟩) =
      mapInsert (mapInsert (entriesOf bs) A.file_path A) B.file_path B :=
    entriesOf_serialize _ hs2 hm2
      (mapInsert_entryWF (mapInsert_entryWF (entriesOf_wf bs) hA) hB)
  refine ⟨serializeAccountData ⟨mapInsert (entriesOf bs) A.file_path A⟩,
    serializeAccountData
      ⟨mapInsert (mapInsert (entriesOf bs) A.file_path A) B.file_path B⟩,
    process_add_event_eq bs A, ?_, ?_, ?_⟩
  · rw [process_add_event_eq, hE1]
  · rw [hE2]
    exact assocLookup_mapInsert_self _ _ _
  · rw [hE2]
    exact countKey_mapInsert_self hs1

set_option maxRecDepth 4000 in
/-- Witness for C1: the spec scenario — storage holding a `Created` entry
for a path, upserted with a `Written` event for the same path, starting
from empty storage. -/
theorem ledger_replace_law_witness :
    ∃ bs1 bs2,
      process_add_event [] ⟨[97], EventType.Created, 100, none⟩ = some bs1 ∧
      process_add_event bs1 ⟨[97], EventType.Written, 200, none⟩ = some bs2 ∧
      assocLookup (entriesOf bs2) ([97] : ByteStr) =
        some ⟨[97], EventType.Written, 200, none⟩ ∧
      countKey (entriesOf bs2) ([97] : ByteStr) = 1 :=
  ledger_replace_law [] ⟨[97], EventType.Created, 100, none⟩
    ⟨[97], EventType.Written, 200, none⟩ (by norm_num) (by decide) (by decide) rfl

/-- Claim C10 (frame property): an upsert touches only the key equal to the
event's `file_path` — for every other path, the entry (present or absent,
and its value) after the upsert is what it was in the deserialized starting
state. -/
theorem upsert_frame (bs : List Nat) (e : Event) (d : AccountData) (q : ByteStr)
    (hlen : bs.length < 2 ^ 32) (he : e.wf = true)
    (hd : deserializeAccountData bs = some d) (hq : q ≠ e.file_path) :
    ∃ out, process_add_event bs e = some out ∧
      assocLookup (entriesOf out) q = assocLookup d.last_file_events q := by
  have h0 : entriesOf bs = d.last_file_events := by
    rw [entriesOf, hd]
    rfl
  obtain ⟨_, _, hlen2⟩ := deserializeAccountData_inv hd
  refine ⟨_, process_add_event_eq bs e, ?_⟩
  have hlen3 : (entriesOf bs).length = d.last_file_events.length := by rw [h0]
  have hins := length_mapInsert (entriesOf bs) e.file_path e
  have hm : (mapInsert (entriesOf bs) e.file_path e).length < 2 ^ 32 := by omega
  rw [entriesOf_serialize _ (mapInsert_sorted (entriesOf_sorted bs)) hm
    (mapInsert_entryWF (entriesOf_wf bs) he)]
  rw [assocLookup_mapInsert_ne _ _ _ _ hq, h0]

set_option maxRecDepth 4000 in
/-- Witness for C10: storage holding one entry for path `[97]`, upserted
with an event for path `[98]`; the lookup of `[97]` is unchanged. -/
theorem upsert_frame_witness :
    ∃ out, process_add_event
        (serializeAccountData ⟨[([97], ⟨[97], EventType.Created, 5, none⟩)]⟩)
        ⟨[98], EventType.Written, 7, none⟩ = some out ∧
      assocLookup (entriesOf out) ([97] : ByteStr) =
        assocLookup [([97], ⟨[97], EventType.Created, 5, none⟩)] ([97] : ByteStr) :=
  upsert_frame (serializeAccountData ⟨[([97], ⟨[97], EventType.Created, 5, none⟩)]⟩)
    ⟨[98], EventType.Written, 7, none⟩
    ⟨[([97], ⟨[97], EventType.Created, 5, none⟩)]⟩ ([97] : ByteStr)
    (by decide) (by decide) (by decide) (by decide)

end FileTracker
